import Mathlib

/-!
Shallow embedding of the sparse-Merkle-tree state backend in
`src/state.rs` of lightclient/simple-transfer, together with a model of
the index-addressed dual-root store that the specification describes.

Conventions used throughout:
* a byte is a `Nat` (reduced modulo 256 wherever the code reads it as `u8`);
* a chunk is a `List Nat` of length 32;
* Rust functions that can panic (out-of-bounds `array_ref` / slice indexing)
  are modelled with `Option`, where `none` is the panic outcome;
* `u64` / `U264` arithmetic is `Nat` arithmetic with explicit `% 2 ^ 64`
  (resp. `% 2 ^ 264`) at the operations the machine code performs.
-/

set_option maxRecDepth 10000

/-- Modelled from the spec: the error enumeration of `crate::error::Error`
(spec section 7); `error.rs` itself is not among the provided sources.  Only
`Overflow` is ever constructed by the code in `state.rs`. -/
inductive Error where
  | Overflow
  | ChunkNotLoaded (index : Nat)
  | MalformedProof
deriving DecidableEq

/-- `u64::from_le_bytes`, generalised to any byte list: little-endian value of
the bytes, each byte first reduced mod 256 (as `u8` guarantees in Rust). -/
def fromLE : List Nat → Nat
  | [] => 0
  | b :: bs => b % 256 + 256 * fromLE bs

/-- `u64::to_le_bytes` (second argument: number of bytes produced). -/
def toLE : Nat → Nat → List Nat
  | _, 0 => []
  | n, k + 1 => n % 256 :: toLE (n / 256) k

/-- Read a `u64` from 8 little-endian bytes starting at byte position `pos`;
`none` models the panic of `array_ref![bytes, pos, 8]` when out of bounds. -/
def readU64LE (bytes : List Nat) (pos : Nat) : Option Nat :=
  if pos + 8 ≤ bytes.length then some (fromLE ((bytes.drop pos).take 8)) else none

/-- One step per loop iteration of `InMemoryBackend::lookup`
(`state.rs` lines 86-105).  The fuel argument counts the remaining
iterations; when `fuel = k + 1` the examined bit of `index` is bit `k`,
matching the Rust loop `for i in 1..(height + 4)` reading bit
`height + 3 - i`.  `position` and `offset` are `u64` accumulators. -/
def lookupGo (offsets : List Nat) (index : Nat) : Nat → Nat → Nat → Option Nat
  | 0, _, off => some off
  | k + 1, pos, off =>
    if (index >>> k) &&& 1 = 0 then
      lookupGo offsets index k ((pos + 1) % 2 ^ 64) off
    else
      match readU64LE offsets ((pos * 8) % 2 ^ 64) with
      | none => none
      | some skip =>
        lookupGo offsets index k ((pos + skip) % 2 ^ 64) ((off + skip) % 2 ^ 64)

/-- `InMemoryBackend::lookup`: walk the low `height + 3` bits of `index`
from most significant to least significant, accumulating skip counts read
from the `offsets` byte table.  Returns the chunk offset into `db`. -/
def lookup (offsets : List Nat) (height index : Nat) : Option Nat :=
  lookupGo offsets index (height + 3) 0 0

/-- `InMemoryBackend::get` (`state.rs` lines 76-79): read the 32-byte chunk at
byte offset `lookup(index) * 32`; `none` models the `array_ref` panic. -/
def InMemoryBackend.get (offsets db : List Nat) (height index : Nat) : Option (List Nat) :=
  match lookup offsets height index with
  | none => none
  | some off =>
    if 32 * off + 32 ≤ db.length then some ((db.drop (32 * off)).take 32) else none

/-- `InMemoryBackend::update` (`state.rs` lines 81-84): overwrite the 32-byte
chunk at byte offset `lookup(index) * 32`; `none` models the slice panic. -/
def update (offsets db : List Nat) (height index : Nat) (value : List Nat) :
    Option (List Nat) :=
  match lookup offsets height index with
  | none => none
  | some off =>
    if 32 * off + 32 ≤ db.length then
      some (db.take (32 * off) ++ value ++ db.drop (32 * off + 32))
    else none

/-- Reduction modulo `2 ^ 264`, the width of the `U264` tree-index type. -/
def u264 (n : Nat) : Nat := n % 2 ^ 264

/-- The address-and-field to leaf-index map used by the backend:
`((((U264::one() << height) + address) << 2) + field) << 1`, each `U264`
operation taken mod `2 ^ 264`.  The code instantiates `field = 2` (balance,
`add_value`/`sub_value`, `state.rs` line 158/177) and `field = 3` (nonce,
`inc_nonce`, line 196). -/
def leaf_index (height addr field : Nat) : Nat :=
  u264 (u264 (u264 (u264 (u264 (2 ^ height) + addr) * 4) + field) * 2)

/-- The balance-leaf index computed by `add_value` / `sub_value`. -/
def valueIndex (height addr : Nat) : Nat := leaf_index height addr 2

/-- The nonce-leaf index computed by `inc_nonce`. -/
def nonceIndex (height addr : Nat) : Nat := leaf_index height addr 3

/-- `InMemoryBackend::add_value` (`state.rs` lines 156-173).  The returned
pair carries the (possibly updated) `db` buffer and the `Result` value;
`none` is a panic inside `get`/`update`.  `overflowing_add` overflows exactly
when the mathematical sum reaches `2 ^ 64`; on overflow the function returns
before writing, leaving `db` untouched. -/
def addValue (offsets db : List Nat) (height addr amount : Nat) :
    Option (List Nat × Except Error Nat) :=
  match InMemoryBackend.get offsets db height (valueIndex height addr) with
  | none => none
  | some chunk =>
    let value := fromLE (chunk.take 8)
    if 2 ^ 64 ≤ value + amount then
      some (db, Except.error Error.Overflow)
    else
      match update offsets db height (valueIndex height addr)
          (toLE (value + amount) 8 ++ List.replicate 24 0) with
      | none => none
      | some db2 => some (db2, Except.ok (value + amount))

/-- `InMemoryBackend::sub_value` (`state.rs` lines 175-192); `overflowing_sub`
underflows exactly when `amount` exceeds the stored value. -/
def subValue (offsets db : List Nat) (height addr amount : Nat) :
    Option (List Nat × Except Error Nat) :=
  match InMemoryBackend.get offsets db height (valueIndex height addr) with
  | none => none
  | some chunk =>
    let value := fromLE (chunk.take 8)
    if value < amount then
      some (db, Except.error Error.Overflow)
    else
      match update offsets db height (valueIndex height addr)
          (toLE (value - amount) 8 ++ List.replicate 24 0) with
      | none => none
      | some db2 => some (db2, Except.ok (value - amount))

/-- `InMemoryBackend::inc_nonce` (`state.rs` lines 194-211). -/
def incNonce (offsets db : List Nat) (height addr : Nat) :
    Option (List Nat × Except Error Nat) :=
  match InMemoryBackend.get offsets db height (nonceIndex height addr) with
  | none => none
  | some chunk =>
    let nonce := fromLE (chunk.take 8)
    if 2 ^ 64 ≤ nonce + 1 then
      some (db, Except.error Error.Overflow)
    else
      match update offsets db height (nonceIndex height addr)
          (toLE (nonce + 1) 8 ++ List.replicate 24 0) with
      | none => none
      | some db2 => some (db2, Except.ok (nonce + 1))

/-- The three public mutation operations of the backend, as one type, so that
properties quantifying over "any of the three operations" can be stated. -/
inductive SrcOp where
  | add (addr amount : Nat)
  | sub (addr amount : Nat)
  | inc (addr : Nat)

/-- Dispatch a `SrcOp` to the corresponding backend method. -/
def runSrcOp (offsets db : List Nat) (height : Nat) : SrcOp → Option (List Nat × Except Error Nat)
  | SrcOp.add a k => addValue offsets db height a k
  | SrcOp.sub a k => subValue offsets db height a k
  | SrcOp.inc a => incNonce offsets db height a

/-- The address an operation touches. -/
def SrcOp.addr : SrcOp → Nat
  | SrcOp.add a _ => a
  | SrcOp.sub a _ => a
  | SrcOp.inc a => a

/-- Whether the operation reads/writes the balance leaf. -/
def SrcOp.isValueOp : SrcOp → Bool
  | SrcOp.add _ _ => true
  | SrcOp.sub _ _ => true
  | SrcOp.inc _ => false

/-- The `u64` an account balance leaf currently decodes to (low 8 bytes of the
chunk, little endian), when the leaf can be read at all. -/
def balanceOf (offsets db : List Nat) (height addr : Nat) : Option Nat :=
  (InMemoryBackend.get offsets db height (valueIndex height addr)).map (fun c => fromLE (c.take 8))

/-- The `u64` an account nonce leaf currently decodes to. -/
def nonceOf (offsets db : List Nat) (height addr : Nat) : Option Nat :=
  (InMemoryBackend.get offsets db height (nonceIndex height addr)).map (fun c => fromLE (c.take 8))

/-- Iterate `inc_nonce` on the same address, threading the buffer through,
requiring every call to succeed. -/
def iterInc (offsets : List Nat) (height addr : Nat) : Nat → List Nat → Option (List Nat)
  | 0, db => some db
  | k + 1, db =>
    match incNonce offsets db height addr with
    | some (db2, Except.ok _) => iterInc offsets height addr k db2
    | _ => none

/-- Serialize a list of `u64` skip counts as the little-endian byte table the
tests build (`state.rs` lines 226-230). -/
def u64Bytes (ns : List Nat) : List Nat :=
  ns.foldr (fun n acc => toLE n 8 ++ acc) []

/-- `H256::from(u8)` (`state.rs` lines 27-34): the byte in position 0, zeroes
elsewhere. -/
def chunkOfByte (n : Nat) : List Nat := n :: List.replicate 31 0

/-- Read the 32-byte chunk number `off` of a proof buffer
(`array_ref![proof, offset * 32, 32]`); `none` models the panic. -/
def readChunk (proof : List Nat) (off : Nat) : Option (List Nat) :=
  if 32 * off + 32 ≤ proof.length then some ((proof.drop (32 * off)).take 32) else none

/-- The recursive root computation `helper` (`state.rs` lines 108-137) over
the skip-count table `offsets` (a list of already-decoded `u64` values).
The hash primitive (`crate::hash::hash`, external to the sources) is a
parameter mapping the 64-byte concatenation of two chunks to a 32-byte
digest.  `none` models the panics of `array_ref` chunk reads and of the
Rust subslice expressions `&offsets[1..offsets[0]]` / `&offsets[offsets[0]..]`
when their ranges are invalid; a leading skip count of `0` makes the range
`1..0` invalid, so that case is a panic before anything else happens. -/
def helper (hash : List Nat → List Nat) (proof : List Nat) :
    List Nat → Nat → Option (Except Error (List Nat))
  | [], offset => (readChunk proof offset).map Except.ok
  | 0 :: _, _ => none
  | (n + 1) :: rest, offset =>
    match readChunk proof offset, readChunk proof (offset + 1) with
    | some c0, some c1 =>
      let leftR : Option (Except Error (List Nat)) :=
        if n + 1 = 1 then some (Except.ok c0)
        else if n + 1 ≤ rest.length + 1 then helper hash proof (rest.take n) offset
        else none
      match leftR with
      | none => none
      | some (Except.error e) => some (Except.error e)
      | some (Except.ok left) =>
        let rightR : Option (Except Error (List Nat)) :=
          if rest.length + 1 = 1 then some (Except.ok c1)
          else if n + 1 ≤ rest.length + 1 then
            helper hash proof (rest.drop n) ((n + 1 + offset) % 2 ^ 64)
          else none
        match rightR with
        | none => none
        | some (Except.error e) => some (Except.error e)
        | some (Except.ok right) => some (Except.ok (hash (left ++ right)))
    | _, _ => none
termination_by o _ => o.length
decreasing_by
  all_goals simp [List.length_take, List.length_drop]
  all_goals omega

/-- `core::slice::from_raw_parts(ptr as *const u64, len / 8)` on a
little-endian target: reinterpret the byte table as `len / 8` `u64` values. -/
def bytesToU64 (bytes : List Nat) : List Nat :=
  (List.range (bytes.length / 8)).map (fun k => fromLE ((bytes.drop (8 * k)).take 8))

/-- `InMemoryBackend::root` (`state.rs` lines 148-154). -/
def rootOf (hash : List Nat → List Nat) (offsets db : List Nat) :
    Option (Except Error (List Nat)) :=
  helper hash db (bytesToU64 offsets) 0

/-- Modelled from the spec: `crate::hash::zh` — the memoized zero-hash table
(spec section 6), whose sources are not provided.  `zero_hash 0` is the
all-zero chunk (the root of an empty depth-0 subtree) and
`zero_hash (d + 1)` is the digest of `zero_hash d` concatenated with
itself. -/
def zeroHash (hash : List Nat → List Nat) : Nat → List Nat
  | 0 => List.replicate 32 0
  | d + 1 => hash (zeroHash hash d ++ zeroHash hash d)

/-- A concrete stand-in compression function, used to instantiate theorems
that are generic in the hash primitive. -/
def constHash : List Nat → List Nat := fun _ => List.replicate 32 0

/-! ### Concrete fixtures

These mirror the fixtures of the test module in `state.rs`:
`build_proof` (tree indices `[16, 17, 9, 10, 11, 3]`, skip counts
`[5, 3, 2, 1, 1]`) and `lookup_small_branch` / `root_simple_branch`
(tree indices `[4, 10, 11, 3]`, skip counts `[3, 1, 1]`). -/

/-- Skip-count table `[3, 1, 1]` as little-endian bytes. -/
def off311 : List Nat := u64Bytes [3, 1, 1]

/-- Skip-count table `[5, 3, 2, 1, 1]` as little-endian bytes. -/
def bpOffsets : List Nat := u64Bytes [5, 3, 2, 1, 1]

/-- The `build_proof` chunk buffer: chunks `0, 0, zero_hash 0, 1, 1,
zero_hash 0` for tree indices `[16, 17, 9, 10, 11, 3]`; the balance leaf of
account 0 (tree index 10, chunk slot 3) holds little-endian `1`. -/
def bpDb : List Nat :=
  chunkOfByte 0 ++ chunkOfByte 0 ++ List.replicate 32 0 ++
    chunkOfByte 1 ++ chunkOfByte 1 ++ List.replicate 32 0

/-- `bpDb` after `add_value(0, 1)`: the balance chunk now holds
little-endian `2`. -/
def bpDbAfterAdd : List Nat :=
  chunkOfByte 0 ++ chunkOfByte 0 ++ List.replicate 32 0 ++
    chunkOfByte 2 ++ chunkOfByte 1 ++ List.replicate 32 0

/-- The `build_proof` shape with the balance leaf of account 0 replaced by
`zero_hash 0` (the all-zero chunk). -/
def bpDbZero : List Nat :=
  chunkOfByte 0 ++ chunkOfByte 0 ++ List.replicate 32 0 ++
    List.replicate 32 0 ++ chunkOfByte 1 ++ List.replicate 32 0

/-- A four-chunk buffer for the `[4, 10, 11, 3]` shape whose balance leaf of
account 0 (chunk slot 1) holds `u64::MAX`. -/
def maxDb : List Nat :=
  List.replicate 32 0 ++ (toLE (2 ^ 64 - 1) 8 ++ List.replicate 24 0) ++
    List.replicate 64 0

/-- The proof buffer of the `root_simple_branch` test: chunks
`zero_hash 1, zero_hash 0, zero_hash 0, zero_hash 2` at tree indices
`[4, 10, 11, 3]`. -/
def zhProof (hash : List Nat → List Nat) : List Nat :=
  zeroHash hash 1 ++ (zeroHash hash 0 ++ (zeroHash hash 0 ++ zeroHash hash 2))

/-! ### The index-addressed dual-root store

Modelled from the spec: `state.rs` only contains the structural,
offset-addressed backend, whose `root` returns a single hash computed from
the current buffer.  The index-addressed revision with the
`(pre, post : Option)` duality — the one the `Backend::root` doc comment
("Calculates the root before making changes to the structure and after in
one pass") and spec sections 3 and 4.4 describe — is not among the provided
sources, so it is modelled here from the spec's words. -/

/-- Modelled from the spec (section 3): a stored node's `pre` chunk (as
supplied by the proof) and optional `post` chunk (set only by mutation or by
parent derivation). -/
structure TreeEntry where
  pre : List Nat
  post : Option (List Nat)

/-- Modelled from the spec (section 3): the partial tree store, a mapping
from tree index to `TreeEntry`, here an association list keyed by index. -/
abbrev TreeStore : Type := List (Nat × TreeEntry)

/-- First entry with the given tree index, if any. -/
def findEntry : TreeStore → Nat → Option TreeEntry
  | [], _ => none
  | (k, e) :: rest, i => if k = i then some e else findEntry rest i

/-- Modelled from the spec (section 4.3): a node's effective chunk — `post`
if set, else `pre`. -/
def effectiveOf (e : TreeEntry) : List Nat := e.post.getD e.pre

/-- Modelled from the spec (section 4.3): `set_post` requires the index to be
present already and overwrites only the `post` field, leaving `pre`
untouched. -/
def setPost (s : TreeStore) (k : Nat) (c : List Nat) : Option TreeStore :=
  match findEntry s k with
  | none => none
  | some _ =>
    some (List.map (fun p => if p.1 = k then (p.1, TreeEntry.mk p.2.pre (some c)) else p) s)

/-- The `(index, pre-chunk)` view of a store.  Mutations through `set_post`
never change this view. -/
def preView (s : TreeStore) : List (Nat × List Nat) :=
  List.map (fun p => (p.1, p.2.pre)) s

/-- A store with every `post` erased: the "original values as supplied by the
proof". -/
def erasePost (s : TreeStore) : TreeStore :=
  List.map (fun p => (p.1, TreeEntry.mk p.2.pre none)) s

/-- Modelled from the spec (section 4.4): one work-list step at index `i`.
If both children of `i`'s parent are present and the parent is not, derive
the parent: its `pre` is the hash of the children's `pre` chunks, its `post`
the hash of the children's effective chunks; the parent is appended to the
store and its index is handed back for the work-list. -/
def stepNode (hash : List Nat → List Nat) (s : TreeStore) (i : Nat) :
    TreeStore × Option Nat :=
  match findEntry s (2 * (i / 2)), findEntry s (2 * (i / 2) + 1), findEntry s (i / 2) with
  | some el, some er, none =>
    (s ++ [(i / 2, TreeEntry.mk (hash (el.pre ++ er.pre))
        (some (hash (effectiveOf el ++ effectiveOf er))))], some (i / 2))
  | _, _, _ => (s, none)

/-- Modelled from the spec (section 4.4): process the work-list until it is
exhausted; freshly derived parents are appended at the end.  `fuel` bounds
the number of processed positions. -/
def processQueue (hash : List Nat → List Nat) : Nat → List Nat → TreeStore → TreeStore
  | 0, _, s => s
  | _ + 1, [], s => s
  | fuel + 1, i :: rest, s =>
    processQueue hash fuel (rest ++ (stepNode hash s i).2.toList) (stepNode hash s i).1

/-- Insert into a sorted list (ascending). -/
def insertSorted (x : Nat) : List Nat → List Nat
  | [] => [x]
  | y :: ys => if x ≤ y then x :: y :: ys else y :: insertSorted x ys

/-- Sort the known indices ascending, the work-list's initial order. -/
def sortKeys (l : List Nat) : List Nat := l.foldr insertSorted []

/-- Modelled from the spec (sections 4.4 and 6): run the work-list pass over
all known indices in ascending order, then read the root pair from index 1:
`(root_pre, root_post)`, the `pre` chunk and the effective chunk.  A proof
that never connects to the root is a `ChunkNotLoaded` failure. -/
def rootsPair (hash : List Nat → List Nat) (fuel : Nat) (s : TreeStore) :
    Except Error (List Nat × List Nat) :=
  match findEntry (processQueue hash fuel (sortKeys (List.map Prod.fst s)) s) 1 with
  | none => Except.error (Error.ChunkNotLoaded 1)
  | some e => Except.ok (e.pre, effectiveOf e)

/-- Modelled from the spec (section 4.5): `add_value` against the
index-addressed store — read the balance leaf (effective chunk), add with
overflow detection, write back through `set_post`.  Errors leave the store
unchanged. -/
def addValueM (s : TreeStore) (height addr amount : Nat) : Except Error Nat × TreeStore :=
  match findEntry s (valueIndex height addr) with
  | none => (Except.error (Error.ChunkNotLoaded (valueIndex height addr)), s)
  | some e =>
    let v := fromLE ((effectiveOf e).take 8)
    if 2 ^ 64 ≤ v + amount then (Except.error Error.Overflow, s)
    else
      match setPost s (valueIndex height addr)
          (toLE (v + amount) 8 ++ List.replicate 24 0) with
      | none => (Except.error (Error.ChunkNotLoaded (valueIndex height addr)), s)
      | some s2 => (Except.ok (v + amount), s2)

/-- Modelled from the spec (section 4.5): `sub_value` against the
index-addressed store. -/
def subValueM (s : TreeStore) (height addr amount : Nat) : Except Error Nat × TreeStore :=
  match findEntry s (valueIndex height addr) with
  | none => (Except.error (Error.ChunkNotLoaded (valueIndex height addr)), s)
  | some e =>
    let v := fromLE ((effectiveOf e).take 8)
    if v < amount then (Except.error Error.Overflow, s)
    else
      match setPost s (valueIndex height addr)
          (toLE (v - amount) 8 ++ List.replicate 24 0) with
      | none => (Except.error (Error.ChunkNotLoaded (valueIndex height addr)), s)
      | some s2 => (Except.ok (v - amount), s2)

/-- Modelled from the spec (section 4.5): `inc_nonce` against the
index-addressed store. -/
def incNonceM (s : TreeStore) (height addr : Nat) : Except Error Nat × TreeStore :=
  match findEntry s (nonceIndex height addr) with
  | none => (Except.error (Error.ChunkNotLoaded (nonceIndex height addr)), s)
  | some e =>
    let v := fromLE ((effectiveOf e).take 8)
    if 2 ^ 64 ≤ v + 1 then (Except.error Error.Overflow, s)
    else
      match setPost s (nonceIndex height addr)
          (toLE (v + 1) 8 ++ List.replicate 24 0) with
      | none => (Except.error (Error.ChunkNotLoaded (nonceIndex height addr)), s)
      | some s2 => (Except.ok (v + 1), s2)

/-- A mutation against the index-addressed store. -/
inductive MOp where
  | addV (a k : Nat)
  | subV (a k : Nat)
  | incN (a : Nat)

/-- Apply one mutation, keeping the resulting store (errors leave the store
as it was, so arbitrary mutation sequences are simply threaded through). -/
def applyMOp (height : Nat) (s : TreeStore) : MOp → TreeStore
  | MOp.addV a k => (addValueM s height a k).2
  | MOp.subV a k => (subValueM s height a k).2
  | MOp.incN a => (incNonceM s height a).2

/-- Apply a sequence of mutations left to right. -/
def applyMOps (height : Nat) (ops : List MOp) (s : TreeStore) : TreeStore :=
  ops.foldl (applyMOp height) s

/-! ### Shared lemmas about the byte-level primitives -/

lemma toLE_length (n k : Nat) : (toLE n k).length = k := by
  induction k generalizing n with
  | zero => rfl
  | succ k ih => simp [toLE, ih]

lemma fromLE_toLE8 (n : Nat) (h : n < 2 ^ 64) : fromLE (toLE n 8) = n := by
  simp only [toLE, fromLE]
  omega

lemma newChunk_length (n : Nat) : (toLE n 8 ++ List.replicate 24 0).length = 32 := by
  simp [toLE_length]

lemma newChunk_take8 (n : Nat) : (toLE n 8 ++ List.replicate 24 0).take 8 = toLE n 8 := by
  have h := List.take_left (toLE n 8) (List.replicate 24 (0 : Nat))
  rwa [toLE_length] at h

/-- `take`/`drop` across an append whose first component has known length. -/
lemma take_append_length {A rest : List Nat} {n : Nat} (hA : A.length = n) :
    (A ++ rest).take n = A := by
  subst hA; exact List.take_left A rest

lemma drop_append_length {A rest : List Nat} {n : Nat} (hA : A.length = n) :
    (A ++ rest).drop n = rest := by
  subst hA; exact List.drop_left A rest

/-- Core read-modify-write lemma: if the chunk at `idx` can be read, then any
32-byte chunk can be written there; the write succeeds, preserves the buffer
length, is visible to a subsequent read of the same index, and changes no
byte outside the written 32-byte window. -/
lemma get_update (offsets db : List Nat) (height idx : Nat) (chunk c : List Nat)
    (hg : InMemoryBackend.get offsets db height idx = some chunk) (hc : c.length = 32) :
    ∃ db2, update offsets db height idx c = some db2 ∧
      db2.length = db.length ∧
      InMemoryBackend.get offsets db2 height idx = some c ∧
      ∀ off, lookup offsets height idx = some off →
        ∀ m, m < 32 * off ∨ 32 * off + 32 ≤ m → db2[m]? = db[m]? := by
  cases hlk : lookup offsets height idx with
  | none =>
    simp only [InMemoryBackend.get, hlk] at hg
    exact Option.noConfusion hg
  | some off =>
    simp only [InMemoryBackend.get, hlk] at hg
    by_cases hb : 32 * off + 32 ≤ db.length
    · have hA : (db.take (32 * off)).length = 32 * off := by
        rw [List.length_take]; omega
      have hD : (db.drop (32 * off + 32)).length = db.length - (32 * off + 32) :=
        List.length_drop _ _
      refine ⟨db.take (32 * off) ++ c ++ db.drop (32 * off + 32), ?_, ?_, ?_, ?_⟩
      · simp only [update, hlk]
        rw [if_pos hb]
      · simp only [List.length_append, hA, hc, hD]
        omega
      · have hlen : (db.take (32 * off) ++ c ++ db.drop (32 * off + 32)).length = db.length := by
          simp only [List.length_append, hA, hc, hD]; omega
        simp only [InMemoryBackend.get, hlk]
        rw [if_pos (by rw [hlen]; exact hb)]
        rw [List.append_assoc, drop_append_length hA, take_append_length hc]
      · intro off2 hoff2 m hm
        injection hoff2 with hoff2
        subst hoff2
        rcases hm with hm | hm
        · rw [List.append_assoc, List.getElem?_append_left (by rw [hA]; exact hm),
            List.getElem?_take, if_pos hm]
        · have hAC : (db.take (32 * off) ++ c).length = 32 * off + 32 := by
            rw [List.length_append, hA, hc]
          rw [List.getElem?_append_right (by rw [hAC]; omega), hAC, List.getElem?_drop]
          congr 1
          omega
    · rw [if_neg hb] at hg
      exact Option.noConfusion hg

/-- For in-range inputs (tree height at most 256, address below `2 ^ height`,
field below the group size 4) the `U264` reductions in `leaf_index` vanish:
the index is exactly `((2 ^ height + addr) * 4 + field) * 2`. -/
lemma leaf_index_eval (height addr field : Nat) (hh : height ≤ 256)
    (ha : addr < 2 ^ height) (hf : field < 4) :
    leaf_index height addr field = ((2 ^ height + addr) * 4 + field) * 2 := by
  have hA : (2 : Nat) ^ height ≤ 2 ^ 256 := Nat.pow_le_pow_right (by norm_num) hh
  have h264 : (2 : Nat) ^ 264 = 2 ^ 256 * 256 := by
    rw [show (264 : Nat) = 256 + 8 from rfl, pow_add]
    norm_num
  unfold leaf_index u264
  have e1 : (2 : Nat) ^ height % 2 ^ 264 = 2 ^ height := Nat.mod_eq_of_lt (by omega)
  rw [e1]
  have e2 : ((2 : Nat) ^ height + addr) % 2 ^ 264 = 2 ^ height + addr :=
    Nat.mod_eq_of_lt (by omega)
  rw [e2]
  have e3 : ((2 : Nat) ^ height + addr) * 4 % 2 ^ 264 = (2 ^ height + addr) * 4 :=
    Nat.mod_eq_of_lt (by omega)
  rw [e3]
  have e4 : (((2 : Nat) ^ height + addr) * 4 + field) % 2 ^ 264
      = (2 ^ height + addr) * 4 + field := Nat.mod_eq_of_lt (by omega)
  rw [e4]
  exact Nat.mod_eq_of_lt (by omega)

/-- C6: for a fixed height `H ≤ 256` and the fixed field-group size 4, the
address-and-field to leaf-index map is injective — equal leaf indices force
equal addresses and equal fields; in particular the balance index (field 2)
and the nonce index (field 3) never collide across accounts. -/
theorem leaf_index_injective (height a1 a2 f1 f2 : Nat) (hh : height ≤ 256)
    (ha1 : a1 < 2 ^ height) (ha2 : a2 < 2 ^ height) (hf1 : f1 < 4) (hf2 : f2 < 4)
    (heq : leaf_index height a1 f1 = leaf_index height a2 f2) :
    a1 = a2 ∧ f1 = f2 := by
  rw [leaf_index_eval height a1 f1 hh ha1 hf1,
    leaf_index_eval height a2 f2 hh ha2 hf2] at heq
  constructor <;> omega

/-- Witness for C6 at `height = 1`: the hypotheses are satisfiable and the
theorem applies. -/
theorem leaf_index_injective_witness :
    leaf_index 1 0 2 = leaf_index 1 0 2 ∧ (0 = 0 ∧ 2 = 2) :=
  ⟨rfl, leaf_index_injective 1 0 0 2 2 (by norm_num) (by norm_num) (by norm_num)
    (by norm_num) (by norm_num) rfl⟩

/-- C2 (failing input): with the `[4, 10, 11, 3]` proof shape at height 1,
account address 1's balance leaf (tree index 28) is not covered by the
proof; `add_value(1, 1)` then reads the skip table out of bounds inside
`lookup` — a panic (`none`), not a `ChunkNotLoaded` error. -/
theorem add_value_missing_leaf_panics :
    addValue off311 (List.replicate 128 0) 1 1 1 = none := by
  rfl

/-- C9 (failing input): a proof buffer holding a single 32-byte chunk with
skip-count sequence `[1]` makes `helper` read a second chunk that does not
exist; the read is out of bounds — a panic (`none`), not a
`MalformedProof` error. -/
theorem helper_short_buffer_panics (hash : List Nat → List Nat) :
    helper hash (List.replicate 32 0) [1] 0 = none := by
  rw [helper]
  rfl

/-- C3: whenever `add_value`, `sub_value` or `inc_nonce` returns the
`Overflow` error, the backing buffer is left byte-for-byte unchanged, so a
subsequent root computation returns exactly what it would have returned
before the failed call. -/
theorem overflow_leaves_db_unchanged (hash : List Nat → List Nat)
    (offsets db : List Nat) (height : Nat) (op : SrcOp) (db2 : List Nat)
    (hrun : runSrcOp offsets db height op = some (db2, Except.error Error.Overflow)) :
    db2 = db ∧ rootOf hash offsets db2 = rootOf hash offsets db := by
  suffices h : db2 = db by exact ⟨h, by rw [h]⟩
  cases op with
  | add a k =>
    simp only [runSrcOp, addValue] at hrun
    cases hg : InMemoryBackend.get offsets db height (valueIndex height a) with
    | none => rw [hg] at hrun; exact Option.noConfusion hrun
    | some chunk =>
      rw [hg] at hrun
      simp only at hrun
      split at hrun
      · simp only [Option.some.injEq, Prod.mk.injEq] at hrun
        exact hrun.1.symm
      · split at hrun
        · exact Option.noConfusion hrun
        · simp at hrun
  | sub a k =>
    simp only [runSrcOp, subValue] at hrun
    cases hg : InMemoryBackend.get offsets db height (valueIndex height a) with
    | none => rw [hg] at hrun; exact Option.noConfusion hrun
    | some chunk =>
      rw [hg] at hrun
      simp only at hrun
      split at hrun
      · simp only [Option.some.injEq, Prod.mk.injEq] at hrun
        exact hrun.1.symm
      · split at hrun
        · exact Option.noConfusion hrun
        · simp at hrun
  | inc a =>
    simp only [runSrcOp, incNonce] at hrun
    cases hg : InMemoryBackend.get offsets db height (nonceIndex height a) with
    | none => rw [hg] at hrun; exact Option.noConfusion hrun
    | some chunk =>
      rw [hg] at hrun
      simp only at hrun
      split at hrun
      · simp only [Option.some.injEq, Prod.mk.injEq] at hrun
        exact hrun.1.symm
      · split at hrun
        · exact Option.noConfusion hrun
        · simp at hrun

/-- Witness for C3: `add_value(0, 1)` on a buffer whose balance leaf holds
`u64::MAX` fails with `Overflow` and the buffer is untouched. -/
theorem overflow_leaves_db_unchanged_witness :
    runSrcOp off311 maxDb 1 (SrcOp.add 0 1) = some (maxDb, Except.error Error.Overflow) ∧
      (maxDb = maxDb ∧ rootOf constHash off311 maxDb = rootOf constHash off311 maxDb) :=
  ⟨rfl, overflow_leaves_db_unchanged constHash off311 maxDb 1 (SrcOp.add 0 1) maxDb rfl⟩

/-- C8 (counterexample): if the balance leaf of account 0 holds
`zero_hash(0)` (the all-zero chunk) rather than the little-endian chunk `1`
that the repository's `build_proof` fixture actually stores, then
`add_value(0, 1)` returns 1 — not 2 as the claim states. -/
theorem add_value_zero_chunk_returns_one :
    (addValue bpOffsets bpDbZero 1 0 1).map Prod.snd = some (Except.ok 1) ∧
      ¬ (addValue bpOffsets bpDbZero 1 0 1).map Prod.snd = some (Except.ok 2) := by
  refine ⟨rfl, fun h => ?_⟩
  rw [show (addValue bpOffsets bpDbZero 1 0 1).map Prod.snd = some (Except.ok 1) from rfl] at h
  simp only [Option.some.injEq, Except.ok.injEq] at h
  exact absurd h (by norm_num)

/-- C8 (amended): on the `build_proof` fixture — account address 0 at height
1, balance leaf at tree index 10 holding the little-endian chunk `1` —
`add_value(0, 1)` returns 2 and afterwards the low 8 bytes of that leaf's
stored chunk are the little-endian encoding of 2. -/
theorem add_value_test_vector :
    (addValue bpOffsets bpDb 1 0 1).map Prod.snd = some (Except.ok 2) ∧
      ((addValue bpOffsets bpDb 1 0 1).bind
          (fun p => InMemoryBackend.get bpOffsets p.1 1 (valueIndex 1 0))).map
        (fun c => c.take 8) = some [2, 0, 0, 0, 0, 0, 0, 0] :=
  ⟨rfl, rfl⟩

/-- Successful `add_value` dissected: the balance chunk was readable, the sum
stayed below `2 ^ 64`, and the new chunk was written back. -/
lemma addValue_ok (offsets db db1 : List Nat) (height addr k v1 : Nat)
    (h : addValue offsets db height addr k = some (db1, Except.ok v1)) :
    ∃ chunk, InMemoryBackend.get offsets db height (valueIndex height addr) = some chunk ∧
      v1 = fromLE (chunk.take 8) + k ∧
      fromLE (chunk.take 8) + k < 2 ^ 64 ∧
      update offsets db height (valueIndex height addr)
        (toLE (fromLE (chunk.take 8) + k) 8 ++ List.replicate 24 0) = some db1 := by
  cases hg : InMemoryBackend.get offsets db height (valueIndex height addr) with
  | none => simp only [addValue, hg] at h; exact Option.noConfusion h
  | some chunk =>
    simp only [addValue, hg] at h
    refine ⟨chunk, rfl, ?_⟩
    by_cases hov : 2 ^ 64 ≤ fromLE (chunk.take 8) + k
    · rw [if_pos hov] at h
      simp at h
    · rw [if_neg hov] at h
      cases hu : update offsets db height (valueIndex height addr)
          (toLE (fromLE (chunk.take 8) + k) 8 ++ List.replicate 24 0) with
      | none => rw [hu] at h; exact Option.noConfusion h
      | some db2 =>
        rw [hu] at h
        simp only [Option.some.injEq, Prod.mk.injEq, Except.ok.injEq] at h
        exact ⟨h.2.symm, by omega, by rw [h.1]⟩

/-- C4: if `add_value(addr, k)` succeeds on a loaded buffer, then
`sub_value(addr, k)` on the result succeeds and returns exactly the balance
the account had before the `add_value` call, and the stored balance is
restored to that original value. -/
theorem add_then_sub_restores_balance (offsets db db1 : List Nat)
    (height addr k v1 : Nat)
    (h : addValue offsets db height addr k = some (db1, Except.ok v1)) :
    (subValue offsets db1 height addr k).map Prod.snd
        = (balanceOf offsets db height addr).map Except.ok ∧
      (subValue offsets db1 height addr k).bind
          (fun p => balanceOf offsets p.1 height addr)
        = balanceOf offsets db height addr := by
  obtain ⟨chunk, hg, hv1, hov, hu⟩ := addValue_ok offsets db db1 height addr k v1 h
  obtain ⟨db2, hu2, hlen2, hget2, hframe2⟩ :=
    get_update offsets db height (valueIndex height addr) chunk
      (toLE (fromLE (chunk.take 8) + k) 8 ++ List.replicate 24 0) hg (newChunk_length _)
  rw [hu] at hu2
  injection hu2 with hu2
  subst hu2
  have hval : fromLE ((toLE (fromLE (chunk.take 8) + k) 8 ++ List.replicate 24 0).take 8)
      = fromLE (chunk.take 8) + k := by
    rw [newChunk_take8, fromLE_toLE8 _ hov]
  obtain ⟨db3, hu3, hlen3, hget3, hframe3⟩ :=
    get_update offsets db1 height (valueIndex height addr) _
      (toLE (fromLE (chunk.take 8)) 8 ++ List.replicate 24 0) hget2 (newChunk_length _)
  have hsub : subValue offsets db1 height addr k
      = some (db3, Except.ok (fromLE (chunk.take 8))) := by
    simp only [subValue, hget2, hval]
    rw [if_neg (by omega)]
    rw [show fromLE (chunk.take 8) + k - k = fromLE (chunk.take 8) from by omega]
    rw [hu3]
  constructor
  · rw [hsub]
    simp only [balanceOf, hg, Option.map_some']
  · rw [hsub]
    show balanceOf offsets db3 height addr = balanceOf offsets db height addr
    simp only [balanceOf, hget3, hg, Option.map_some']
    rw [newChunk_take8, fromLE_toLE8 _ (by omega)]

/-- Witness for C4 on the `build_proof` fixture: add 1 to balance 1, then
subtract 1 again. -/
theorem add_then_sub_restores_balance_witness :
    addValue bpOffsets bpDb 1 0 1 = some (bpDbAfterAdd, Except.ok 2) ∧
      ((subValue bpOffsets bpDbAfterAdd 1 0 1).map Prod.snd
          = (balanceOf bpOffsets bpDb 1 0).map Except.ok ∧
        (subValue bpOffsets bpDbAfterAdd 1 0 1).bind
            (fun p => balanceOf bpOffsets p.1 1 0)
          = balanceOf bpOffsets bpDb 1 0) :=
  ⟨rfl, add_then_sub_restores_balance bpOffsets bpDb bpDbAfterAdd 1 0 1 2 rfl⟩

/-- Successful `inc_nonce` dissected and replayed: reading nonce `n` with
`n + 1 < 2 ^ 64` increments the stored nonce to `n + 1`. -/
lemma incNonce_step (offsets db : List Nat) (height addr n : Nat)
    (h1 : nonceOf offsets db height addr = some n) (h2 : n + 1 < 2 ^ 64) :
    ∃ db2, incNonce offsets db height addr = some (db2, Except.ok (n + 1)) ∧
      nonceOf offsets db2 height addr = some (n + 1) := by
  obtain ⟨chunk, hg, hn⟩ := Option.map_eq_some'.mp h1
  obtain ⟨db2, hu2, hlen2, hget2, hframe2⟩ :=
    get_update offsets db height (nonceIndex height addr) chunk
      (toLE (n + 1) 8 ++ List.replicate 24 0) hg (newChunk_length _)
  refine ⟨db2, ?_, ?_⟩
  · simp only [incNonce, hg, hn]
    rw [if_neg (by omega)]
    rw [hu2]
  · simp only [nonceOf, hget2, Option.map_some']
    rw [newChunk_take8, fromLE_toLE8 _ h2]

/-- Iterating `inc_nonce` `H` times adds `H` to the stored nonce, as long as
the final value stays below `2 ^ 64`. -/
lemma iterInc_spec (offsets : List Nat) (height addr : Nat) :
    ∀ (H : Nat) (db : List Nat) (n : Nat),
      nonceOf offsets db height addr = some n → n + H < 2 ^ 64 →
      (iterInc offsets height addr H db).bind
        (fun d => nonceOf offsets d height addr) = some (n + H) := by
  intro H
  induction H with
  | zero =>
    intro db n h1 h2
    simp [iterInc, h1]
  | succ k ih =>
    intro db n h1 h2
    obtain ⟨db2, hstep, hn2⟩ := incNonce_step offsets db height addr n h1 (by omega)
    simp only [iterInc, hstep]
    rw [ih db2 (n + 1) hn2 (by omega)]
    congr 1
    omega

/-- C5: with the nonce leaf present and holding `n`, and no overflow,
`inc_nonce` returns `n + 1`; iterating it `H` times leaves the stored nonce
at `n + H` (so the last call returned `n + H`). -/
theorem inc_nonce_monotonic (offsets db : List Nat) (height addr n H : Nat)
    (h1 : nonceOf offsets db height addr = some n)
    (h2 : n + H < 2 ^ 64) (h3 : 0 < H) :
    (incNonce offsets db height addr).map Prod.snd = some (Except.ok (n + 1)) ∧
      (iterInc offsets height addr H db).bind
        (fun d => nonceOf offsets d height addr) = some (n + H) := by
  obtain ⟨db2, hstep, hn2⟩ := incNonce_step offsets db height addr n h1 (by omega)
  exact ⟨by rw [hstep]; rfl, iterInc_spec offsets height addr H db n h1 h2⟩

/-- Witness for C5 on the `build_proof` fixture: nonce 1, two calls, final
nonce 3. -/
theorem inc_nonce_monotonic_witness :
    (incNonce bpOffsets bpDb 1 0).map Prod.snd = some (Except.ok 2) ∧
      (iterInc bpOffsets 1 0 2 bpDb).bind (fun d => nonceOf bpOffsets d 1 0) = some 3 :=
  inc_nonce_monotonic bpOffsets bpDb 1 0 1 2 rfl (by norm_num) (by norm_num)

/-- Successful `sub_value` dissected, mirror image of `addValue_ok`. -/
lemma subValue_ok (offsets db db1 : List Nat) (height addr k v1 : Nat)
    (h : subValue offsets db height addr k = some (db1, Except.ok v1)) :
    ∃ chunk, InMemoryBackend.get offsets db height (valueIndex height addr) = some chunk ∧
      v1 = fromLE (chunk.take 8) - k ∧
      k ≤ fromLE (chunk.take 8) ∧
      update offsets db height (valueIndex height addr)
        (toLE (fromLE (chunk.take 8) - k) 8 ++ List.replicate 24 0) = some db1 := by
  cases hg : InMemoryBackend.get offsets db height (valueIndex height addr) with
  | none => simp only [subValue, hg] at h; exact Option.noConfusion h
  | some chunk =>
    simp only [subValue, hg] at h
    refine ⟨chunk, rfl, ?_⟩
    by_cases hov : fromLE (chunk.take 8) < k
    · rw [if_pos hov] at h
      simp at h
    · rw [if_neg hov] at h
      cases hu : update offsets db height (valueIndex height addr)
          (toLE (fromLE (chunk.take 8) - k) 8 ++ List.replicate 24 0) with
      | none => rw [hu] at h; exact Option.noConfusion h
      | some db2 =>
        rw [hu] at h
        simp only [Option.some.injEq, Prod.mk.injEq, Except.ok.injEq] at h
        exact ⟨h.2.symm, by omega, by rw [h.1]⟩

/-- C10: a successful `add_value` or `sub_value` changes at most the 32-byte
window of the account's balance chunk: the buffer keeps its length and every
byte outside the window at `32 * lookup(value_index)` is unchanged.  (The
skip-count table is a shared immutable borrow, `&'a [u8]`, and cannot change
at all.) -/
theorem value_op_frame (offsets db db2 : List Nat) (height : Nat) (op : SrcOp)
    (v off : Nat)
    (hv : op.isValueOp = true)
    (hrun : runSrcOp offsets db height op = some (db2, Except.ok v))
    (hoff : lookup offsets height (valueIndex height op.addr) = some off) :
    db2.length = db.length ∧
      ∀ m, m < 32 * off ∨ 32 * off + 32 ≤ m → db2[m]? = db[m]? := by
  cases op with
  | inc a => exact absurd hv (by simp [SrcOp.isValueOp])
  | add a k =>
    simp only [runSrcOp] at hrun
    obtain ⟨chunk, hg, hv1, hov, hu⟩ := addValue_ok offsets db db2 height a k v hrun
    obtain ⟨db3, hu3, hlen3, hget3, hframe3⟩ :=
      get_update offsets db height (valueIndex height a) chunk
        (toLE (fromLE (chunk.take 8) + k) 8 ++ List.replicate 24 0) hg (newChunk_length _)
    rw [hu] at hu3
    injection hu3 with hu3
    subst hu3
    exact ⟨hlen3, fun m hm => hframe3 off (by simpa [SrcOp.addr] using hoff) m hm⟩
  | sub a k =>
    simp only [runSrcOp] at hrun
    obtain ⟨chunk, hg, hv1, hov, hu⟩ := subValue_ok offsets db db2 height a k v hrun
    obtain ⟨db3, hu3, hlen3, hget3, hframe3⟩ :=
      get_update offsets db height (valueIndex height a) chunk
        (toLE (fromLE (chunk.take 8) - k) 8 ++ List.replicate 24 0) hg (newChunk_length _)
    rw [hu] at hu3
    injection hu3 with hu3
    subst hu3
    exact ⟨hlen3, fun m hm => hframe3 off (by simpa [SrcOp.addr] using hoff) m hm⟩

/-- Witness for C10 on the `build_proof` fixture: the balance chunk sits at
chunk slot 3 (bytes 96-127); byte 0 is untouched and the length is kept. -/
theorem value_op_frame_witness :
    bpDbAfterAdd.length = bpDb.length ∧ bpDbAfterAdd[0]? = bpDb[0]? := by
  have h := value_op_frame bpOffsets bpDb bpDbAfterAdd 1 (SrcOp.add 0 1) 2 3 rfl rfl rfl
  exact ⟨h.1, h.2 0 (Or.inl (by norm_num))⟩

lemma readChunk_here (c rest : List Nat) (hc : c.length = 32) :
    readChunk (c ++ rest) 0 = some c := by
  unfold readChunk
  rw [if_pos (by simp only [List.length_append, hc]; omega)]
  simp only [Nat.mul_zero, List.drop_zero, Nat.zero_add]
  exact congrArg some (take_append_length hc)

lemma readChunk_single (c : List Nat) (hc : c.length = 32) :
    readChunk c 0 = some c := by
  unfold readChunk
  rw [if_pos (by omega)]
  simp only [Nat.mul_zero, List.drop_zero]
  rw [← hc, List.take_length]

lemma readChunk_there (c rest : List Nat) (k : Nat) (hc : c.length = 32) :
    readChunk (c ++ rest) (k + 1) = readChunk rest k := by
  unfold readChunk
  have h1 : (c ++ rest).length = 32 + rest.length := by simp [hc]
  by_cases hb : 32 * k + 32 ≤ rest.length
  · rw [if_pos (by rw [h1]; omega), if_pos hb]
    have h2 : (c ++ rest).drop (32 * (k + 1)) = rest.drop (32 * k) := by
      rw [show 32 * (k + 1) = c.length + 32 * k from by rw [hc]; ring, List.drop_append]
    rw [h2]
  · rw [if_neg (by rw [h1]; omega), if_neg hb]

/-- C7: over the `[4, 10, 11, 3]` partial-tree shape (skip counts
`[3, 1, 1]`) with leaf chunks `zero_hash 1, zero_hash 0, zero_hash 0,
zero_hash 2`, the structural root computation returns `zero_hash 3`, for
every 32-byte-valued compression function. -/
theorem root_simple_branch_zero_hash (hash : List Nat → List Nat)
    (hlen : ∀ b, (hash b).length = 32) :
    helper hash (zhProof hash) [3, 1, 1] 0 = some (Except.ok (zeroHash hash 3)) := by
  have zl : ∀ d, (zeroHash hash d).length = 32 := by
    intro d
    cases d with
    | zero => simp [zeroHash]
    | succ d => simp [zeroHash, hlen]
  have r0 : readChunk (zhProof hash) 0 = some (zeroHash hash 1) := by
    unfold zhProof
    exact readChunk_here _ _ (zl 1)
  have r1 : readChunk (zhProof hash) 1 = some (zeroHash hash 0) := by
    have h1 := readChunk_there (zeroHash hash 1)
      (zeroHash hash 0 ++ (zeroHash hash 0 ++ zeroHash hash 2)) 0 (zl 1)
    norm_num at h1
    unfold zhProof
    rw [h1]
    exact readChunk_here _ _ (zl 0)
  have r2 : readChunk (zhProof hash) 2 = some (zeroHash hash 0) := by
    have h1 := readChunk_there (zeroHash hash 1)
      (zeroHash hash 0 ++ (zeroHash hash 0 ++ zeroHash hash 2)) 1 (zl 1)
    have h2 := readChunk_there (zeroHash hash 0)
      (zeroHash hash 0 ++ zeroHash hash 2) 0 (zl 0)
    norm_num at h1 h2
    unfold zhProof
    rw [h1, h2]
    exact readChunk_here _ _ (zl 0)
  have r3 : readChunk (zhProof hash) 3 = some (zeroHash hash 2) := by
    have h1 := readChunk_there (zeroHash hash 1)
      (zeroHash hash 0 ++ (zeroHash hash 0 ++ zeroHash hash 2)) 2 (zl 1)
    have h2 := readChunk_there (zeroHash hash 0)
      (zeroHash hash 0 ++ zeroHash hash 2) 1 (zl 0)
    have h3 := readChunk_there (zeroHash hash 0) (zeroHash hash 2) 0 (zl 0)
    norm_num at h1 h2 h3
    unfold zhProof
    rw [h1, h2, h3]
    exact readChunk_single _ (zl 2)
  have l1 : helper hash (zhProof hash) [1] 1 = some (Except.ok (zeroHash hash 1)) := by
    rw [helper]
    simp [r1, r2]
    rfl
  have l2 : helper hash (zhProof hash) [1, 1] 0 = some (Except.ok (zeroHash hash 2)) := by
    rw [helper]
    simp [r0, r1, l1]
    rfl
  have l3 : helper hash (zhProof hash) [] 3 = some (Except.ok (zeroHash hash 2)) := by
    rw [helper]
    simp [r3]
  rw [helper]
  simp [r0, r1, l2, l3]
  rfl

/-! ### The dual-root invariance argument (C1)

Mutations go through `setPost` only, so they never change the
`(index, pre)` view of the store; and the `pre` component of the computed
root pair depends only on that view. -/

lemma findEntry_preView (s t : TreeStore) (h : preView s = preView t) (k : Nat) :
    (findEntry s k).map TreeEntry.pre = (findEntry t k).map TreeEntry.pre ∧
      (findEntry s k).isSome = (findEntry t k).isSome := by
  induction s generalizing t with
  | nil =>
    cases t with
    | nil => exact ⟨rfl, rfl⟩
    | cons q t2 => simp [preView] at h
  | cons p s2 ih =>
    obtain ⟨k0, e0⟩ := p
    cases t with
    | nil => simp [preView] at h
    | cons q t2 =>
      obtain ⟨k1, e1⟩ := q
      simp only [preView, List.map_cons, List.cons.injEq, Prod.mk.injEq] at h
      obtain ⟨⟨hk, hpre⟩, hrest⟩ := h
      simp only [findEntry]
      by_cases hx : k0 = k
      · rw [if_pos hx, if_pos (by rw [← hk]; exact hx)]
        simp [hpre]
      · rw [if_neg hx, if_neg (by rw [← hk]; exact hx)]
        exact ih t2 hrest

lemma findEntry_none_of (s t : TreeStore) (h : preView s = preView t) (k : Nat)
    (hs : findEntry s k = none) : findEntry t k = none := by
  have h2 := (findEntry_preView s t h k).2
  rw [hs] at h2
  cases ht : findEntry t k with
  | none => rfl
  | some e => rw [ht] at h2; simp at h2

lemma findEntry_some_of (s t : TreeStore) (h : preView s = preView t) (k : Nat)
    (e : TreeEntry) (hs : findEntry s k = some e) :
    ∃ e2, findEntry t k = some e2 ∧ e2.pre = e.pre := by
  obtain ⟨hmap, hsome⟩ := findEntry_preView s t h k
  rw [hs] at hmap hsome
  cases ht : findEntry t k with
  | none => rw [ht] at hsome; simp at hsome
  | some e2 =>
    rw [ht] at hmap
    simp only [Option.map_some'] at hmap
    exact ⟨e2, rfl, (Option.some.inj hmap).symm⟩

lemma preView_setPostMap (s : TreeStore) (k : Nat) (c : List Nat) :
    preView (List.map
        (fun p => if p.1 = k then (p.1, TreeEntry.mk p.2.pre (some c)) else p) s)
      = preView s := by
  induction s with
  | nil => rfl
  | cons p rest ih =>
    obtain ⟨k0, e0⟩ := p
    simp only [preView, List.map_cons] at ih ⊢
    rw [ih]
    by_cases h0 : k0 = k <;> simp [h0]

lemma setPost_preView (s s2 : TreeStore) (k : Nat) (c : List Nat)
    (h : setPost s k c = some s2) : preView s2 = preView s := by
  cases hf : findEntry s k with
  | none =>
    simp only [setPost, hf] at h
    exact Option.noConfusion h
  | some e =>
    simp only [setPost, hf, Option.some.injEq] at h
    rw [← h]
    exact preView_setPostMap s k c

lemma applyMOp_preView (height : Nat) (s : TreeStore) (op : MOp) :
    preView (applyMOp height s op) = preView s := by
  cases op with
  | addV a k =>
    show preView (addValueM s height a k).2 = preView s
    cases hf : findEntry s (valueIndex height a) with
    | none => simp only [addValueM, hf]
    | some e =>
      simp only [addValueM, hf]
      split
      · rfl
      · cases hsp : setPost s (valueIndex height a)
            (toLE (fromLE ((effectiveOf e).take 8) + k) 8 ++ List.replicate 24 0) with
        | none => simp only [hsp]
        | some s2 =>
          simp only [hsp]
          exact setPost_preView s s2 _ _ hsp
  | subV a k =>
    show preView (subValueM s height a k).2 = preView s
    cases hf : findEntry s (valueIndex height a) with
    | none => simp only [subValueM, hf]
    | some e =>
      simp only [subValueM, hf]
      split
      · rfl
      · cases hsp : setPost s (valueIndex height a)
            (toLE (fromLE ((effectiveOf e).take 8) - k) 8 ++ List.replicate 24 0) with
        | none => simp only [hsp]
        | some s2 =>
          simp only [hsp]
          exact setPost_preView s s2 _ _ hsp
  | incN a =>
    show preView (incNonceM s height a).2 = preView s
    cases hf : findEntry s (nonceIndex height a) with
    | none => simp only [incNonceM, hf]
    | some e =>
      simp only [incNonceM, hf]
      split
      · rfl
      · cases hsp : setPost s (nonceIndex height a)
            (toLE (fromLE ((effectiveOf e).take 8) + 1) 8 ++ List.replicate 24 0) with
        | none => simp only [hsp]
        | some s2 =>
          simp only [hsp]
          exact setPost_preView s s2 _ _ hsp

lemma applyMOps_preView (height : Nat) (ops : List MOp) (s : TreeStore) :
    preView (applyMOps height ops s) = preView s := by
  induction ops generalizing s with
  | nil => rfl
  | cons op rest ih =>
    show preView (List.foldl (applyMOp height) s (op :: rest)) = preView s
    rw [List.foldl_cons]
    rw [show List.foldl (applyMOp height) (applyMOp height s op) rest
        = applyMOps height rest (applyMOp height s op) from rfl]
    rw [ih (applyMOp height s op), applyMOp_preView]

lemma stepNode_sim (hash : List Nat → List Nat) (s t : TreeStore) (i : Nat)
    (h : preView s = preView t) :
    preView (stepNode hash s i).1 = preView (stepNode hash t i).1 ∧
      (stepNode hash s i).2 = (stepNode hash t i).2 := by
  cases hsl : findEntry s (2 * (i / 2)) with
  | none =>
    have htl := findEntry_none_of s t h _ hsl
    simp only [stepNode, hsl, htl]
    exact ⟨h, trivial⟩
  | some el =>
    obtain ⟨el2, htl, hprel⟩ := findEntry_some_of s t h _ el hsl
    cases hsr : findEntry s (2 * (i / 2) + 1) with
    | none =>
      have htr := findEntry_none_of s t h _ hsr
      simp only [stepNode, hsl, htl, hsr, htr]
      exact ⟨h, trivial⟩
    | some er =>
      obtain ⟨er2, htr, hprer⟩ := findEntry_some_of s t h _ er hsr
      cases hsp : findEntry s (i / 2) with
      | some ep =>
        obtain ⟨ep2, htp, _⟩ := findEntry_some_of s t h _ ep hsp
        simp only [stepNode, hsl, htl, hsr, htr, hsp, htp]
        exact ⟨h, trivial⟩
      | none =>
        have htp := findEntry_none_of s t h _ hsp
        simp only [stepNode, hsl, htl, hsr, htr, hsp, htp]
        constructor
        · unfold preView at h ⊢
          simp only [List.map_append, List.map_cons, List.map_nil]
          rw [hprel, hprer, h]
        · trivial

lemma processQueue_sim (hash : List Nat → List Nat) :
    ∀ (fuel : Nat) (q : List Nat) (s t : TreeStore), preView s = preView t →
      preView (processQueue hash fuel q s) = preView (processQueue hash fuel q t) := by
  intro fuel
  induction fuel with
  | zero =>
    intro q s t h
    simpa [processQueue] using h
  | succ fuel ih =>
    intro q s t h
    cases q with
    | nil => simpa [processQueue] using h
    | cons i rest =>
      obtain ⟨h1, h2⟩ := stepNode_sim hash s t i h
      simp only [processQueue]
      rw [h2]
      exact ih (rest ++ (stepNode hash t i).2.toList) _ _ h1

lemma rootsPair_preView (hash : List Nat → List Nat) (fuel : Nat) (s t : TreeStore)
    (h : preView s = preView t) :
    (rootsPair hash fuel s).map Prod.fst = (rootsPair hash fuel t).map Prod.fst := by
  have hkeys : List.map Prod.fst s = List.map Prod.fst t := by
    have hs : List.map Prod.fst s = List.map Prod.fst (preView s) := by
      unfold preView
      rw [List.map_map]
      rfl
    have ht : List.map Prod.fst t = List.map Prod.fst (preView t) := by
      unfold preView
      rw [List.map_map]
      rfl
    rw [hs, ht, h]
  have hdone := processQueue_sim hash fuel (sortKeys (List.map Prod.fst s)) s t h
  unfold rootsPair
  rw [← hkeys]
  cases hfs : findEntry (processQueue hash fuel (sortKeys (List.map Prod.fst s)) s) 1 with
  | none =>
    rw [findEntry_none_of _ _ hdone 1 hfs]
  | some e =>
    obtain ⟨e2, hft, hpre⟩ := findEntry_some_of _ _ hdone 1 e hfs
    rw [hft]
    simp [Except.map, hpre]

/-- C1: the root-pair computation of the index-addressed store.  The first
conjunct: `root_pre` is unaffected by any sequence of
`add_value`/`sub_value`/`inc_nonce` mutations applied in between (mutations
set only `post` chunks).  The second conjunct: `root_pre` coincides with the
`pre`-root of the store with every `post` erased, i.e. it is computed from
the original values exactly as supplied by the proof. -/
theorem roots_pre_unaffected_by_mutations (hash : List Nat → List Nat)
    (height fuel : Nat) (ops : List MOp) (s : TreeStore) :
    (rootsPair hash fuel (applyMOps height ops s)).map Prod.fst
        = (rootsPair hash fuel s).map Prod.fst ∧
      (rootsPair hash fuel (erasePost s)).map Prod.fst
        = (rootsPair hash fuel s).map Prod.fst := by
  constructor
  · exact rootsPair_preView hash fuel _ s (applyMOps_preView height ops s)
  · refine rootsPair_preView hash fuel _ s ?_
    unfold erasePost preView
    rw [List.map_map]
    rfl

/-- Witness for C7: instantiate the compression function with a concrete
32-byte-valued function. -/
theorem root_simple_branch_zero_hash_witness :
    helper constHash (zhProof constHash) [3, 1, 1] 0
      = some (Except.ok (zeroHash constHash 3)) :=
  root_simple_branch_zero_hash constHash (fun b => by simp [constHash])
